import Mathlib

/-!
Verification of the MSF paged-stream core (`src/msf_stream.h`).

The header contains the inline generic helper `pageCount` (embedded below as
`pageCountFn` over unbounded naturals, and as `pageCountW` over `w`-bit
unsigned arithmetic with explicit `% 2^w`).  The bodies of the `MsfStream`
member functions are not part of the sources at hand (the header declares
them); those operations are modelled from the specification, as indicated in
the doc comment of each such definition.
-/

/-- Embedding of the free template function `pageCount` of `msf_stream.h`
(lines 32-35): `(length + pageSize - 1) / pageSize`, read over unbounded
natural numbers. -/
def pageCountFn (pageSize length : Nat) : Nat :=
  (length + pageSize - 1) / pageSize

/-- Embedding of the template `pageCount` instantiated at an unsigned `w`-bit
integer type: the intermediate sum `length + pageSize - 1` is reduced modulo
`2 ^ w`, exactly as C++ unsigned arithmetic does (inputs are assumed in
range, i.e. `< 2 ^ w`). -/
def pageCountW (w pageSize length : Nat) : Nat :=
  ((length + pageSize - 1) % 2 ^ w) / pageSize

/-- Model of the borrowed `FILE*` handle: immutable byte contents addressed
by absolute offset, plus the current seek position. -/
structure FileHandle where
  data : Nat → Nat
  posn : Nat

/-- Model of `fseek` to an absolute offset. -/
def fseek (f : FileHandle) (off : Nat) : FileHandle :=
  ⟨f.data, off⟩

/-- Model of `fread` of `n` bytes at the current position: returns the bytes
and the advanced handle. -/
def fread (f : FileHandle) (n : Nat) : List Nat × FileHandle :=
  ((List.range n).map fun i => f.data (f.posn + i), ⟨f.data, f.posn + n⟩)

/-- The `MsfStream` state: page size, logical length, and the owned copy of
the page list (fields as in `msf_stream.h` lines 46-48). -/
structure MsfStream where
  pageSize : Nat
  length : Nat
  pages : List Nat

/-- Modelled from the spec: the constructor body of `MsfStream` is not in the
header.  Per spec §4.1 it stores `pageSize` and `length` verbatim, copies
exactly `pageCount(pageSize, length)` entries from `pages`, and fails
(precondition violation, modelled as `none`) when `pageSize == 0`. -/
def MsfStream.make (pageSize length : Nat) (pages : List Nat) : Option MsfStream :=
  if pageSize = 0 then none
  else some ⟨pageSize, length, pages.take (pageCountFn pageSize length)⟩

/-- Derived accessor `MsfStream::pageCount()`; per spec §3 it returns
`ceil(length / pageSize)` (0 when the length is 0). -/
def MsfStream.pageCount (s : MsfStream) : Nat :=
  pageCountFn s.pageSize s.length

/-- Modelled from the spec: the body of `MsfStream::readFromPage` is not in
the header.  Per spec §4.1 it seeks the file to absolute position
`page * pageSize + offset` and reads exactly `length` bytes; the contract
`offset + length <= pageSize` is checked and a violation fails fast
(modelled as `none`). -/
def MsfStream.readFromPage (s : MsfStream) (f : FileHandle) (page length offset : Nat) :
    Option (List Nat) × FileHandle :=
  if offset + length ≤ s.pageSize then
    let r := fread (fseek f (page * s.pageSize + offset)) length
    (some r.1, r.2)
  else (none, f)

/-- Chunks produced by the read loop after the first chunk: starting at
logical page `p` with `rem` bytes still to read, emit full pages while more
than one page remains, then the final remainder (spec §4.1, steps 3-4).
Each chunk is `(logical page index, intra-page offset, byte count)`.  The
`pageSize = 0` case returns `[]` purely for totality; construction rules out
a zero page size.  The first argument is fuel bounding the number of loop
iterations (each iteration consumes at least one byte of `rem`, so `rem`
itself is always enough fuel, as `restChunks` below supplies). -/
def restChunksAux : Nat → Nat → Nat → Nat → List (Nat × Nat × Nat)
  | 0, _, _, _ => []
  | fuel + 1, pageSize, p, rem =>
    if rem = 0 then []
    else if pageSize = 0 then []
    else if pageSize < rem then
      (p, 0, pageSize) :: restChunksAux fuel pageSize (p + 1) (rem - pageSize)
    else [(p, 0, rem)]

def restChunks (pageSize p rem : Nat) : List (Nat × Nat × Nat) :=
  restChunksAux rem pageSize p rem

/-- The full chunk decomposition of a logical read of `length` bytes at
logical position `pos` (spec §4.1, steps 1-4): first chunk at page
`pos / pageSize`, intra-page offset `pos % pageSize`, of
`min(length, pageSize - offset)` bytes, then `restChunks`. -/
def readChunks (pageSize length pos : Nat) : List (Nat × Nat × Nat) :=
  if length = 0 then []
  else
    let p0 := pos / pageSize
    let o0 := pos % pageSize
    let first := min length (pageSize - o0)
    (p0, o0, first) :: restChunks pageSize (p0 + 1) (length - first)

/-- Executes the chunk list: one `readFromPage` call per chunk, resolving the
logical page index through the stream's page list, threading the file handle,
and concatenating the bytes. -/
def MsfStream.readGo (s : MsfStream) : FileHandle → List (Nat × Nat × Nat) → Option (List Nat)
  | _, [] => some []
  | f, c :: cs =>
    match s.pages[c.1]? with
    | none => none
    | some pg =>
      match s.readFromPage f pg c.2.2 c.2.1 with
      | (none, _) => none
      | (some bs, f2) =>
        match s.readGo f2 cs with
        | none => none
        | some rest => some (bs ++ rest)

/-- Modelled from the spec: the body of `MsfStream::read` is not in the
header.  Per spec §4.1 it translates the logical range `[pos, pos+length)`
into per-page chunks and issues one `readFromPage` call per chunk; per spec
§7 an out-of-range request (`pos + length` beyond the stream length) is an
explicit, checked failure (modelled as `none`). -/
def MsfStream.read (s : MsfStream) (f : FileHandle) (length pos : Nat) : Option (List Nat) :=
  if pos + length ≤ s.length then
    s.readGo f (readChunks s.pageSize length pos)
  else none

/-- Modelled from the spec: the two-argument overload `read(file, buf, pos)`
is "equivalent to `read(file, this->length() - pos, buf, pos)`" (spec §4.1). -/
def MsfStream.readAll (s : MsfStream) (f : FileHandle) (pos : Nat) : Option (List Nat) :=
  s.read f (s.length - pos) pos

/-- The byte a stream should deliver at logical position `t`: the byte of the
file at offset `pages[t / pageSize] * pageSize + t % pageSize`. -/
def streamByte (pageSize : Nat) (pages : List Nat) (data : Nat → Nat) (t : Nat) : Nat :=
  data (pages.getD (t / pageSize) 0 * pageSize + t % pageSize)

/-- The reference buffer of claim C1: the concatenation, over each logical
page `i` below `pageCount P L`, of the bytes at file offset `pages[i] * P`
of length `min P (L - i*P)`. -/
def streamSpecBytes (P L : Nat) (pages : List Nat) (data : Nat → Nat) : List Nat :=
  ((List.range (pageCountFn P L)).map fun i =>
    (List.range (min P (L - i * P))).map fun j => data (pages.getD i 0 * P + j)).flatten

theorem pageCountFn_zero_length (P : Nat) (hP : 0 < P) : pageCountFn P 0 = 0 := by
  unfold pageCountFn
  exact Nat.div_eq_of_lt (by omega)

theorem le_pageCountFn_mul (P L : Nat) (hP : 0 < P) : L ≤ pageCountFn P L * P := by
  have h1 : L + P - 1 < (pageCountFn P L + 1) * P :=
    (Nat.div_lt_iff_lt_mul hP).mp (Nat.lt_succ_self _)
  have h2 : (pageCountFn P L + 1) * P = pageCountFn P L * P + P := Nat.succ_mul _ _
  rw [h2] at h1
  omega

theorem pageCountFn_mul_le (P L : Nat) : pageCountFn P L * P ≤ L + P - 1 :=
  Nat.div_mul_le_self _ _

theorem pageCountFn_eq_ceil (P L : Nat) (hP : 0 < P) :
    pageCountFn P L = ⌈(L : ℚ) / (P : ℚ)⌉₊ := by
  have hPQ : (0 : ℚ) < (P : ℚ) := by exact_mod_cast hP
  rcases Nat.eq_zero_or_pos L with hL | hL
  · subst hL
    simp [pageCountFn_zero_length P hP]
  · have hone : 1 ≤ pageCountFn P L := by
      unfold pageCountFn
      rw [Nat.le_div_iff_mul_le hP]
      omega
    symm
    rw [Nat.ceil_eq_iff (by omega)]
    have hub : (pageCountFn P L - 1) * P < L := by
      have h2 : (pageCountFn P L - 1) * P = pageCountFn P L * P - P := Nat.sub_one_mul _ _
      have h3 := pageCountFn_mul_le P L
      omega
    have hle : L ≤ pageCountFn P L * P := le_pageCountFn_mul P L hP
    constructor
    · rw [lt_div_iff₀ hPQ]
      exact_mod_cast hub
    · rw [div_le_iff₀ hPQ]
      exact_mod_cast hle

theorem mul_add_div_off (P p j : Nat) (hP : 0 < P) (hj : j < P) : (p * P + j) / P = p := by
  rw [Nat.mul_comm p P, Nat.mul_add_div hP, Nat.div_eq_of_lt hj]
  omega

theorem mul_add_mod_off (P p j : Nat) (hP : 0 < P) (hj : j < P) : (p * P + j) % P = j := by
  rw [Nat.mul_comm p P, Nat.mul_add_mod, Nat.mod_eq_of_lt hj]

theorem streamByte_at (P : Nat) (pages : List Nat) (d : Nat → Nat) (p j : Nat)
    (hP : 0 < P) (hj : j < P) :
    streamByte P pages d (p * P + j) = d (pages.getD p 0 * P + j) := by
  unfold streamByte
  rw [mul_add_div_off P p j hP hj, mul_add_mod_off P p j hP hj]

theorem restChunksAux_irrel :
    ∀ fuel fuel' P p rem, rem ≤ fuel → rem ≤ fuel' →
      restChunksAux fuel P p rem = restChunksAux fuel' P p rem := by
  intro fuel
  induction fuel with
  | zero =>
    intro fuel' P p rem h h'
    have h0 : rem = 0 := by omega
    subst h0
    cases fuel' with
    | zero => rfl
    | succ m => simp [restChunksAux]
  | succ n ih =>
    intro fuel' P p rem h h'
    cases fuel' with
    | zero =>
      have h0 : rem = 0 := by omega
      subst h0
      simp [restChunksAux]
    | succ m =>
      simp only [restChunksAux]
      by_cases h0 : rem = 0
      · simp [h0]
      · by_cases hz : P = 0
        · simp [h0, hz]
        · by_cases hlt : P < rem
          · simp only [if_neg h0, if_neg hz, if_pos hlt]
            rw [ih m P (p + 1) (rem - P) (by omega) (by omega)]
          · simp [h0, hz, hlt]

theorem restChunks_zero (P p : Nat) : restChunks P p 0 = [] := rfl

theorem restChunks_step (P p rem : Nat) (hP : 0 < P) (h : P < rem) :
    restChunks P p rem = (p, 0, P) :: restChunks P (p + 1) (rem - P) := by
  unfold restChunks
  obtain ⟨k, hk⟩ : ∃ k, rem = k + 1 := ⟨rem - 1, by omega⟩
  subst hk
  simp only [restChunksAux, if_neg (by omega : ¬ k + 1 = 0),
    if_neg (by omega : ¬ P = 0), if_pos h]
  rw [restChunksAux_irrel k (k + 1 - P) P (p + 1) (k + 1 - P) (by omega) (by omega)]

theorem restChunks_last (P p rem : Nat) (hP : 0 < P) (h0 : 0 < rem) (h1 : rem ≤ P) :
    restChunks P p rem = [(p, 0, rem)] := by
  unfold restChunks
  obtain ⟨k, hk⟩ : ∃ k, rem = k + 1 := ⟨rem - 1, by omega⟩
  subst hk
  simp only [restChunksAux, if_neg (by omega : ¬ k + 1 = 0),
    if_neg (by omega : ¬ P = 0), if_neg (by omega : ¬ P < k + 1)]

theorem restChunks_spec (P : Nat) (hP : 0 < P) :
    ∀ rem p,
      (restChunks P p rem).length = pageCountFn P rem ∧
      ((restChunks P p rem).map fun c => c.2.2).sum = rem ∧
      ∀ c ∈ restChunks P p rem,
        p ≤ c.1 ∧ c.1 * P < p * P + rem ∧ c.2.1 = 0 ∧ 0 < c.2.2 ∧ c.2.2 ≤ P := by
  intro rem
  induction rem using Nat.strong_induction_on with
  | _ rem ih =>
    intro p
    rcases Nat.eq_zero_or_pos rem with h0 | h0
    · subst h0
      refine ⟨?_, ?_, ?_⟩ <;> simp [restChunks_zero, pageCountFn_zero_length P hP]
    · by_cases h1 : P < rem
      · rw [restChunks_step P p rem hP h1]
        obtain ⟨ihl, ihs, ihm⟩ := ih (rem - P) (by omega) (p + 1)
        refine ⟨?_, ?_, ?_⟩
        · simp only [List.length_cons, ihl]
          unfold pageCountFn
          have hsplit : rem + P - 1 = (rem - P + P - 1) + P := by omega
          rw [hsplit, Nat.add_div_right _ hP]
        · simp only [List.map_cons, List.sum_cons, ihs]
          omega
        · intro c hc
          rcases List.mem_cons.mp hc with rfl | hc
          · exact ⟨le_refl _, (by omega : p * P < p * P + rem), rfl, hP, le_refl _⟩
          · obtain ⟨ha, hb, hc1, hc2, hc3⟩ := ihm c hc
            refine ⟨by omega, ?_, hc1, hc2, hc3⟩
            have he : (p + 1) * P = p * P + P := Nat.succ_mul _ _
            omega
      · rw [restChunks_last P p rem hP h0 (by omega)]
        refine ⟨?_, ?_, ?_⟩
        · simp only [List.length_cons, List.length_nil]
          symm
          unfold pageCountFn
          exact Nat.div_eq_of_lt_le (by omega) (by omega)
        · simp
        · intro c hc
          rw [List.mem_singleton] at hc
          subst hc
          exact ⟨le_refl _, (by omega : p * P < p * P + rem), rfl, h0,
            (by omega : rem ≤ P)⟩

theorem readFromPage_ok (s : MsfStream) (f : FileHandle) (page len off : Nat)
    (h : off + len ≤ s.pageSize) :
    s.readFromPage f page len off =
      (some ((List.range len).map fun i => f.data (page * s.pageSize + off + i)),
       ⟨f.data, page * s.pageSize + off + len⟩) := by
  unfold MsfStream.readFromPage fread fseek
  rw [if_pos h]

theorem getD_of_lt (pgs : List Nat) (p : Nat) (hp : p < pgs.length) :
    pgs.getD p 0 = pgs[p] := by
  rw [List.getD_eq_getElem?_getD, List.getElem?_eq_getElem hp, Option.getD_some]

theorem readGo_restChunks (s : MsfStream) (d : Nat → Nat) (hP : 0 < s.pageSize) :
    ∀ rem p (f : FileHandle), f.data = d →
      p * s.pageSize + rem ≤ s.pages.length * s.pageSize →
      s.readGo f (restChunks s.pageSize p rem) =
        some ((List.range rem).map fun i =>
          streamByte s.pageSize s.pages d (p * s.pageSize + i)) := by
  intro rem
  induction rem using Nat.strong_induction_on with
  | _ rem ih =>
    intro p f hf hb
    rcases Nat.eq_zero_or_pos rem with h0 | h0
    · subst h0
      rw [restChunks_zero]
      simp [MsfStream.readGo]
    · have hp : p < s.pages.length := by
        have hlt : p * s.pageSize < s.pages.length * s.pageSize := by omega
        exact Nat.lt_of_mul_lt_mul_right hlt
      have hpg : s.pages[p]? = some s.pages[p] := List.getElem?_eq_getElem hp
      have hgd : s.pages.getD p 0 = s.pages[p] := getD_of_lt s.pages p hp
      by_cases h1 : s.pageSize < rem
      · rw [restChunks_step _ _ _ hP h1]
        simp only [MsfStream.readGo, hpg]
        rw [readFromPage_ok s f s.pages[p] s.pageSize 0 (by omega)]
        have ihres := ih (rem - s.pageSize) (by omega) (p + 1) ⟨f.data, s.pages[p] * s.pageSize + 0 + s.pageSize⟩ hf ?side
        case side =>
          have he : (p + 1) * s.pageSize = p * s.pageSize + s.pageSize := Nat.succ_mul _ _
          omega
        simp only [ihres]
        have hsplit : List.range rem =
            List.range s.pageSize ++ (List.range (rem - s.pageSize)).map (s.pageSize + ·) := by
          conv_lhs => rw [show rem = s.pageSize + (rem - s.pageSize) by omega]
          exact List.range_add _ _
        rw [hsplit, List.map_append, List.map_map]
        apply congrArg
        congr 1
        · apply List.map_congr_left
          intro i hi
          rw [List.mem_range] at hi
          rw [streamByte_at _ _ _ _ _ hP hi, hgd, hf]
          congr 1
        · apply List.map_congr_left
          intro i hi
          rw [List.mem_range] at hi
          simp only [Function.comp]
          congr 1
          have he : (p + 1) * s.pageSize = p * s.pageSize + s.pageSize := Nat.succ_mul _ _
          omega
      · rw [restChunks_last _ _ _ hP h0 (by omega)]
        simp only [MsfStream.readGo, hpg]
        rw [readFromPage_ok s f s.pages[p] rem 0 (by omega)]
        simp only [MsfStream.readGo]
        apply congrArg
        rw [List.append_nil]
        apply List.map_congr_left
        intro i hi
        rw [List.mem_range] at hi
        rw [streamByte_at _ _ _ _ _ hP (by omega), hgd, hf]
        congr 1

theorem read_eq_streamBytes (s : MsfStream) (f : FileHandle) (len pos : Nat)
    (hP : 0 < s.pageSize) (hrange : pos + len ≤ s.length)
    (hcover : s.length ≤ s.pages.length * s.pageSize) :
    s.read f len pos =
      some ((List.range len).map fun i =>
        streamByte s.pageSize s.pages f.data (pos + i)) := by
  unfold MsfStream.read
  rw [if_pos hrange]
  rcases Nat.eq_zero_or_pos len with h0 | h0
  · subst h0
    simp [readChunks, MsfStream.readGo]
  · obtain ⟨p0, o0, hdm, ho0P, hq, hr⟩ :
        ∃ p0 o0, pos = p0 * s.pageSize + o0 ∧ o0 < s.pageSize ∧
          pos / s.pageSize = p0 ∧ pos % s.pageSize = o0 := by
      refine ⟨pos / s.pageSize, pos % s.pageSize, ?_, Nat.mod_lt _ hP, rfl, rfl⟩
      rw [Nat.mul_comm]
      exact (Nat.div_add_mod pos s.pageSize).symm
    simp only [readChunks, if_neg (by omega : ¬ len = 0), hq, hr]
    have hp0lt : p0 < s.pages.length := by
      have h2 : p0 * s.pageSize < s.pages.length * s.pageSize := by omega
      exact Nat.lt_of_mul_lt_mul_right h2
    have hpg : s.pages[p0]? = some s.pages[p0] := List.getElem?_eq_getElem hp0lt
    have hgd : s.pages.getD p0 0 = s.pages[p0] := getD_of_lt _ _ hp0lt
    have he : (p0 + 1) * s.pageSize = p0 * s.pageSize + s.pageSize := Nat.succ_mul _ _
    have hmul : (p0 + 1) * s.pageSize ≤ s.pages.length * s.pageSize :=
      Nat.mul_le_mul_right s.pageSize (by omega : p0 + 1 ≤ s.pages.length)
    simp only [MsfStream.readGo, hpg]
    rw [readFromPage_ok s f s.pages[p0] (min len (s.pageSize - o0)) o0 (by omega)]
    have hrest := readGo_restChunks s f.data hP (len - min len (s.pageSize - o0)) (p0 + 1)
      ⟨f.data, s.pages[p0] * s.pageSize + o0 + min len (s.pageSize - o0)⟩ rfl (by omega)
    simp only [hrest]
    apply congrArg
    have hsplit : List.range len =
        List.range (min len (s.pageSize - o0)) ++
          (List.range (len - min len (s.pageSize - o0))).map (min len (s.pageSize - o0) + ·) := by
      conv_lhs => rw [show len = min len (s.pageSize - o0) + (len - min len (s.pageSize - o0)) by
        omega]
      exact List.range_add _ _
    rw [hsplit, List.map_append, List.map_map]
    congr 1
    · apply List.map_congr_left
      intro i hi
      rw [List.mem_range] at hi
      have hrw : pos + i = p0 * s.pageSize + (o0 + i) := by omega
      rw [hrw, streamByte_at _ _ _ _ _ hP (by omega), hgd]
      congr 1
      omega
    · apply List.map_congr_left
      intro j hj
      rw [List.mem_range] at hj
      simp only [Function.comp]
      have hrw : pos + (min len (s.pageSize - o0) + j) = (p0 + 1) * s.pageSize + j := by omega
      rw [hrw]

theorem make_some (P L : Nat) (pages : List Nat) (hP : 0 < P) :
    MsfStream.make P L pages = some ⟨P, L, pages.take (pageCountFn P L)⟩ := by
  unfold MsfStream.make
  rw [if_neg (by omega)]

theorem make_fields (P L : Nat) (pages : List Nat) (s : MsfStream)
    (hs : MsfStream.make P L pages = some s) :
    0 < P ∧ s.pageSize = P ∧ s.length = L ∧ s.pages = pages.take (pageCountFn P L) := by
  unfold MsfStream.make at hs
  by_cases h : P = 0
  · rw [if_pos h] at hs
    cases hs
  · rw [if_neg h] at hs
    cases hs
    exact ⟨by omega, rfl, rfl, rfl⟩

theorem make_pages_length (P L : Nat) (pages : List Nat) (s : MsfStream)
    (hs : MsfStream.make P L pages = some s) (hpg : pageCountFn P L ≤ pages.length) :
    s.pages.length = pageCountFn P L := by
  obtain ⟨hP, hps, hl, hpgs⟩ := make_fields P L pages s hs
  rw [hpgs, List.length_take]
  omega

theorem make_cover (P L : Nat) (pages : List Nat) (s : MsfStream)
    (hs : MsfStream.make P L pages = some s) (hpg : pageCountFn P L ≤ pages.length) :
    s.length ≤ s.pages.length * s.pageSize := by
  obtain ⟨hP, hps, hl, hpgs⟩ := make_fields P L pages s hs
  rw [hl, hps, make_pages_length P L pages s hs hpg]
  exact le_pageCountFn_mul P L hP

theorem join_pages (P : Nat) (hP : 0 < P) :
    ∀ L (g : Nat → Nat),
      ((List.range (pageCountFn P L)).map fun i =>
        (List.range (min P (L - i * P))).map fun j => g (i * P + j)).flatten =
      (List.range L).map g := by
  intro L
  induction L using Nat.strong_induction_on with
  | _ L ih =>
    intro g
    rcases Nat.eq_zero_or_pos L with h0 | h0
    · subst h0
      simp [pageCountFn_zero_length P hP]
    · by_cases h1 : L ≤ P
      · have hcnt : pageCountFn P L = 1 := by
          unfold pageCountFn
          exact Nat.div_eq_of_lt_le (by omega) (by omega)
        rw [hcnt, show List.range 1 = [0] from rfl]
        simp only [List.map_cons, List.map_nil, List.flatten_cons, List.flatten_nil,
          List.append_nil]
        have hmin : min P (L - 0 * P) = L := by omega
        rw [hmin]
        apply List.map_congr_left
        intro j hj
        simp
      · have hcnt : pageCountFn P L = pageCountFn P (L - P) + 1 := by
          unfold pageCountFn
          have hsp : L + P - 1 = (L - P + P - 1) + P := by omega
          rw [hsp, Nat.add_div_right _ hP]
        rw [hcnt, List.range_succ_eq_map]
        simp only [List.map_cons, List.map_map, List.flatten_cons]
        have hminh : min P (L - 0 * P) = P := by omega
        rw [hminh]
        have hsplit : List.range L = List.range P ++ (List.range (L - P)).map (P + ·) := by
          conv_lhs => rw [show L = P + (L - P) by omega]
          exact List.range_add _ _
        rw [hsplit, List.map_append]
        congr 1
        · apply List.map_congr_left
          intro j hj
          simp
        · have ihL := ih (L - P) (by omega) fun t => g (P + t)
          calc (List.map ((fun i => (List.range (min P (L - i * P))).map fun j =>
                  g (i * P + j)) ∘ Nat.succ) (List.range (pageCountFn P (L - P)))).flatten
              = (List.map (fun i => (List.range (min P (L - P - i * P))).map fun j =>
                  g (P + (i * P + j))) (List.range (pageCountFn P (L - P)))).flatten := by
                apply congrArg
                apply List.map_congr_left
                intro i hi
                simp only [Function.comp]
                have hip : (i + 1) * P = i * P + P := Nat.succ_mul _ _
                have hmins : min P (L - (i + 1) * P) = min P (L - P - i * P) := by omega
                rw [show Nat.succ i = i + 1 from rfl, hmins]
                apply List.map_congr_left
                intro j hj
                congr 1
                omega
            _ = (List.range (L - P)).map fun t => g (P + t) := ihL
            _ = (List.range (L - P)).map (g ∘ (P + ·)) := by
                apply List.map_congr_left
                intro t ht
                simp
            _ = ((List.range (L - P)).map (P + ·)).map g := by
                rw [List.map_map]

theorem map_range_slice (L pos n : Nat) (g : Nat → Nat) (h : pos + n ≤ L) :
    (((List.range L).map g).drop pos).take n = (List.range n).map fun i => g (pos + i) := by
  have hsplit : List.range L = List.range pos ++ (List.range (L - pos)).map (pos + ·) := by
    conv_lhs => rw [show L = pos + (L - pos) by omega]
    exact List.range_add _ _
  rw [hsplit, List.map_append, List.drop_left' (by simp), List.map_map,
    ← List.map_take, List.take_range, show min n (L - pos) = n by omega]
  apply List.map_congr_left
  intro i hi
  simp

theorem readChunks_length (P len pos : Nat) (hP : 0 < P) (hlen : 0 < len) :
    (readChunks P len pos).length = (pos + len - 1) / P - pos / P + 1 := by
  obtain ⟨p0, o0, hdm, ho0P, hq, hr⟩ :
      ∃ p0 o0, pos = p0 * P + o0 ∧ o0 < P ∧ pos / P = p0 ∧ pos % P = o0 := by
    refine ⟨pos / P, pos % P, ?_, Nat.mod_lt _ hP, rfl, rfl⟩
    rw [Nat.mul_comm]
    exact (Nat.div_add_mod pos P).symm
  simp only [readChunks, if_neg (by omega : ¬ len = 0), hq, hr, List.length_cons]
  obtain ⟨hl, -, -⟩ := restChunks_spec P hP (len - min len (P - o0)) (p0 + 1)
  rw [hl]
  have hnum : pos + len - 1 = p0 * P + (o0 + len - 1) := by omega
  have hdiv : (p0 * P + (o0 + len - 1)) / P = p0 + (o0 + len - 1) / P := by
    rw [Nat.mul_comm p0 P, Nat.mul_add_div hP]
  rw [hnum, hdiv]
  by_cases hcase : len ≤ P - o0
  · rw [show min len (P - o0) = len by omega, Nat.sub_self, pageCountFn_zero_length P hP,
      Nat.div_eq_of_lt (by omega : o0 + len - 1 < P)]
    omega
  · rw [show min len (P - o0) = P - o0 by omega]
    unfold pageCountFn
    rw [show len - (P - o0) + P - 1 = o0 + len - 1 by omega, Nat.add_sub_cancel_left]

theorem readChunks_sum (P len pos : Nat) (hP : 0 < P) :
    ((readChunks P len pos).map fun c => c.2.2).sum = len := by
  rcases Nat.eq_zero_or_pos len with h0 | h0
  · subst h0
    simp [readChunks]
  · simp only [readChunks, if_neg (by omega : ¬ len = 0), List.map_cons, List.sum_cons]
    obtain ⟨-, hsum, -⟩ := restChunks_spec P hP (len - min len (P - pos % P)) (pos / P + 1)
    rw [hsum]
    have hm := Nat.mod_lt pos hP
    omega

theorem readChunks_bounds (P len pos : Nat) (hP : 0 < P) :
    ∀ c ∈ readChunks P len pos, c.2.1 + c.2.2 ≤ P ∧ c.1 * P < pos + len := by
  rcases Nat.eq_zero_or_pos len with h0 | h0
  · subst h0
    simp [readChunks]
  · obtain ⟨p0, o0, hdm, ho0P, hq, hr⟩ :
        ∃ p0 o0, pos = p0 * P + o0 ∧ o0 < P ∧ pos / P = p0 ∧ pos % P = o0 := by
      refine ⟨pos / P, pos % P, ?_, Nat.mod_lt _ hP, rfl, rfl⟩
      rw [Nat.mul_comm]
      exact (Nat.div_add_mod pos P).symm
    simp only [readChunks, if_neg (by omega : ¬ len = 0), hq, hr]
    intro c hc
    rcases List.mem_cons.mp hc with rfl | hc
    · exact ⟨(by omega : o0 + min len (P - o0) ≤ P), (by omega : p0 * P < pos + len)⟩
    · obtain ⟨hpa, hpb, hco, hcpos, hcle⟩ :=
        (restChunks_spec P hP (len - min len (P - o0)) (p0 + 1)).2.2 c hc
      have he : (p0 + 1) * P = p0 * P + P := Nat.succ_mul _ _
      have hmul2 : (p0 + 1) * P ≤ c.1 * P := Nat.mul_le_mul_right P hpa
      exact ⟨by omega, by omega⟩

theorem getD_take (l : List Nat) (n i : Nat) (h : i < n) :
    (l.take n).getD i 0 = l.getD i 0 := by
  rw [List.getD_eq_getElem?_getD, List.getD_eq_getElem?_getD, List.getElem?_take_of_lt h]

/-- C1: for every stream constructed with positive page size `P`, stream
length `L`, and a page list holding at least `pageCount(P, L)` entries,
`read(file, L, buf, 0)` fills the buffer with exactly the concatenation,
over each logical page `i` in `0..pageCount-1`, of the bytes at absolute
file offset `pages[i] * P` of length `min(P, L - i*P)`. -/
theorem msf_read_full_eq_spec_concat (P L : Nat) (pages : List Nat) (f : FileHandle)
    (s : MsfStream) (hP : 0 < P) (hpg : pageCountFn P L ≤ pages.length)
    (hs : MsfStream.make P L pages = some s) :
    s.read f L 0 = some (streamSpecBytes P L pages f.data) := by
  obtain ⟨-, hps, hl, hpgs⟩ := make_fields P L pages s hs
  have hcover := make_cover P L pages s hs hpg
  rw [read_eq_streamBytes s f L 0 (by omega) (by omega) hcover]
  apply congrArg
  have h1 : ((List.range L).map fun i => streamByte s.pageSize s.pages f.data (0 + i)) =
      (List.range L).map (streamByte s.pageSize s.pages f.data) := by
    apply List.map_congr_left
    intro i hi
    simp
  rw [h1, hps, ← join_pages P hP L (streamByte P s.pages f.data)]
  unfold streamSpecBytes
  apply congrArg
  apply List.map_congr_left
  intro i hi
  rw [List.mem_range] at hi
  apply List.map_congr_left
  intro j hj
  rw [List.mem_range] at hj
  have hjP : j < P := lt_of_lt_of_le hj (min_le_left _ _)
  rw [streamByte_at P s.pages f.data i j hP hjP, hpgs,
    getD_take pages (pageCountFn P L) i hi]

/-- C2: for every stream of length `L` and every `pos`, `n` with
`pos + n ≤ L`, the sub-range read `read(file, n, buf, pos)` yields exactly
the bytes at positions `[pos, pos+n)` of the buffer produced by the
whole-stream read `read(file, L, buf2, 0)`. -/
theorem msf_read_slice_consistency (P L : Nat) (pages : List Nat) (f : FileHandle)
    (s : MsfStream) (hP : 0 < P) (hpg : pageCountFn P L ≤ pages.length)
    (hs : MsfStream.make P L pages = some s) (pos n : Nat) (hn : pos + n ≤ L) :
    ∃ full, s.read f L 0 = some full ∧ s.read f n pos = some ((full.drop pos).take n) := by
  obtain ⟨-, hps, hl, -⟩ := make_fields P L pages s hs
  have hcover := make_cover P L pages s hs hpg
  refine ⟨_, read_eq_streamBytes s f L 0 (by omega) (by omega) hcover, ?_⟩
  rw [read_eq_streamBytes s f n pos (by omega) (by omega) hcover]
  refine congrArg some ?_
  have h1 : ((List.range L).map fun i => streamByte s.pageSize s.pages f.data (0 + i)) =
      (List.range L).map (streamByte s.pageSize s.pages f.data) := by
    apply List.map_congr_left
    intro i hi
    simp
  rw [h1, map_range_slice L pos n _ hn]

/-- C3: for every in-range read of positive length, if the logical range
`[pos, pos+length)` touches exactly `k` logical pages (so that
`k = (pos+length-1)/P - pos/P + 1`) then the read decomposes into exactly
`k` chunks, each executed as one `readFromPage` call, none crossing a page
boundary (`offset + length ≤ pageSize` for each chunk), with the chunk
lengths summing to exactly the requested length; and `read` executes
exactly this chunk list. -/
theorem msf_read_chunk_calls (P len pos : Nat) (hP : 0 < P) (hlen : 0 < len) :
    (readChunks P len pos).length = (pos + len - 1) / P - pos / P + 1 ∧
    (∀ c ∈ readChunks P len pos, c.2.1 + c.2.2 ≤ P) ∧
    ((readChunks P len pos).map fun c => c.2.2).sum = len ∧
    ∀ (s : MsfStream) (f : FileHandle), s.pageSize = P → pos + len ≤ s.length →
      s.read f len pos = s.readGo f (readChunks P len pos) := by
  refine ⟨readChunks_length P len pos hP hlen, ?_, readChunks_sum P len pos hP, ?_⟩
  · intro c hc
    exact (readChunks_bounds P len pos hP c hc).1
  · intro s f hsp hsl
    unfold MsfStream.read
    rw [if_pos hsl, hsp]

/-- C4: for every positive `pageSize` and every length, the free function
`pageCount(pageSize, length) = (length + pageSize - 1) / pageSize` (read over
unbounded naturals) equals the mathematical ceiling of
`length / pageSize`; in particular `pageCount(pageSize, 0) = 0`. -/
theorem pageCount_is_ceiling (P L : Nat) (hP : 0 < P) :
    pageCountFn P L = ⌈(L : ℚ) / (P : ℚ)⌉₊ ∧ pageCountFn P 0 = 0 :=
  ⟨pageCountFn_eq_ceil P L hP, pageCountFn_zero_length P hP⟩

/-- C5: for every call `readFromPage(file, page, length, buf, offset)` with
`offset + length ≤ pageSize`, the operation seeks the file to absolute
position `page * pageSize + offset` and then reads, in a single page-local
read, exactly `length` bytes, namely the file's bytes at offsets
`page * pageSize + offset + i` for `i < length`. -/
theorem readFromPage_seek_read (s : MsfStream) (f : FileHandle) (page len off : Nat)
    (h : off + len ≤ s.pageSize) :
    s.readFromPage f page len off =
      (some (fread (fseek f (page * s.pageSize + off)) len).1,
       (fread (fseek f (page * s.pageSize + off)) len).2) ∧
    (s.readFromPage f page len off).1 =
      some ((List.range len).map fun i => f.data (page * s.pageSize + off + i)) := by
  constructor
  · unfold MsfStream.readFromPage
    rw [if_pos h]
  · rw [readFromPage_ok s f page len off h]

/-- C6: for every stream and every `pos ≤ length()`, the two-argument
overload `read(file, buf, pos)` produces exactly the same result as
`read(file, length() - pos, buf, pos)`, and it reads precisely the remainder
of the stream from `pos` through its logical end. -/
theorem msf_readAll_overload (P L : Nat) (pages : List Nat) (f : FileHandle)
    (s : MsfStream) (hP : 0 < P) (hpg : pageCountFn P L ≤ pages.length)
    (hs : MsfStream.make P L pages = some s) (pos : Nat) (hpos : pos ≤ L) :
    s.readAll f pos = s.read f (s.length - pos) pos ∧
    s.readAll f pos = some ((List.range (L - pos)).map fun i =>
      streamByte s.pageSize s.pages f.data (pos + i)) := by
  obtain ⟨-, hps, hl, -⟩ := make_fields P L pages s hs
  have hcover := make_cover P L pages s hs hpg
  refine ⟨rfl, ?_⟩
  unfold MsfStream.readAll
  rw [hl]
  exact read_eq_streamBytes s f (L - pos) pos (by omega) (by omega) hcover

/-- C7: for every `PagedStream(pageSize, length, pages)` construction with a
positive page size and a page list of at least `pageCount(pageSize, length)`
entries, the constructor succeeds, stores `pageSize` and `length` verbatim,
and copies exactly `pageCount(pageSize, length)` entries from `pages`; the
accessors `length()`, `pageSize()` and `pageCount()` return the stored
length, the stored page size, and the ceiling of `length / pageSize`
(0 when the length is 0). -/
theorem msf_make_stores (P L : Nat) (pages : List Nat)
    (hP : 0 < P) (hpg : pageCountFn P L ≤ pages.length) :
    ∃ s, MsfStream.make P L pages = some s ∧ s.length = L ∧ s.pageSize = P ∧
      s.pages = pages.take (pageCountFn P L) ∧ s.pages.length = pageCountFn P L ∧
      s.pageCount = ⌈(L : ℚ) / (P : ℚ)⌉₊ ∧ (L = 0 → s.pageCount = 0) := by
  refine ⟨⟨P, L, pages.take (pageCountFn P L)⟩, make_some P L pages hP, rfl, rfl, rfl,
    ?_, ?_, ?_⟩
  · rw [List.length_take]
    omega
  · show pageCountFn P L = _
    exact pageCountFn_eq_ceil P L hP
  · intro h0
    subst h0
    show pageCountFn P 0 = 0
    exact pageCountFn_zero_length P hP

/-- C8: for every length and page list, constructing a stream with
`pageSize == 0` fails deterministically (the reported precondition
violation), rather than dividing by zero or producing a wrong page count. -/
theorem msf_make_zero_pageSize_fails (L : Nat) (pages : List Nat) :
    MsfStream.make 0 L pages = none := by
  unfold MsfStream.make
  rw [if_pos rfl]

/-- C9: for every stream and every `read(file, length, buf, pos)` request
with `pos + length` beyond the stream's length, the operation fails
deterministically with the explicit, checked error (no page is read); and
every in-range request only ever addresses logical pages inside the
stream's page list. -/
theorem msf_read_out_of_range_fails (s : MsfStream) (f : FileHandle) (len pos : Nat)
    (hP : 0 < s.pageSize) :
    (s.length < pos + len → s.read f len pos = none) ∧
    (pos + len ≤ s.length → s.length ≤ s.pages.length * s.pageSize →
      ∀ c ∈ readChunks s.pageSize len pos, c.1 < s.pages.length) := by
  constructor
  · intro h
    unfold MsfStream.read
    rw [if_neg (by omega)]
  · intro h1 h2 c hc
    have hb := (readChunks_bounds s.pageSize len pos hP c hc).2
    have hlt : c.1 * s.pageSize < s.pages.length * s.pageSize := by omega
    exact Nat.lt_of_mul_lt_mul_right hlt

/-- C10: for the `pageCount` template instantiated at an unsigned `w`-bit
type, whenever the intermediate sum `length + pageSize - 1` overflows
(reaches `2^w`), the sum wraps modulo `2^w` and the computed page count is
strictly smaller than the true ceiling of `length / pageSize`; the ceiling
identity of C4 therefore holds only without overflow. -/
theorem pageCountW_overflow_lt_ceiling (w P L : Nat) (hP : 0 < P) (hPw : P < 2 ^ w)
    (hLw : L < 2 ^ w) (hov : 2 ^ w ≤ L + P - 1) :
    pageCountW w P L < ⌈(L : ℚ) / (P : ℚ)⌉₊ := by
  rw [← pageCountFn_eq_ceil P L hP]
  unfold pageCountW pageCountFn
  have hmod : (L + P - 1) % 2 ^ w = L + P - 1 - 2 ^ w := by
    rw [Nat.mod_eq_sub_mod hov]
    exact Nat.mod_eq_of_lt (by omega)
  rw [hmod]
  obtain ⟨X, hX⟩ : ∃ X, (L + P - 1 - 2 ^ w) / P = X := ⟨_, rfl⟩
  rw [hX]
  have hq : X * P ≤ L + P - 1 - 2 ^ w := by
    rw [← hX]
    exact Nat.div_mul_le_self _ _
  have hmul : (X + 1) * P = X * P + P := Nat.succ_mul _ _
  have hstep : (X + 1) * P ≤ L + P - 1 := by omega
  have hfin := (Nat.le_div_iff_mul_le hP).mpr hstep
  exact Nat.lt_of_lt_of_le (Nat.lt_succ_self X) hfin

/-- Witness for C1 at the spec's concrete scenario (`pageSize = 4`,
`length = 10`, `pages = [5, 2, 9]`, file byte `n` at offset `n`). -/
theorem msf_read_full_eq_spec_concat_witness :
    (0 : Nat) < 4 ∧ pageCountFn 4 10 ≤ ([5, 2, 9] : List Nat).length ∧
    MsfStream.make 4 10 [5, 2, 9] = some ⟨4, 10, [5, 2, 9]⟩ ∧
    MsfStream.read ⟨4, 10, [5, 2, 9]⟩ ⟨fun n => n, 0⟩ 10 0 =
      some (streamSpecBytes 4 10 [5, 2, 9] fun n => n) ∧
    streamSpecBytes 4 10 [5, 2, 9] (fun n => n) =
      [20, 21, 22, 23, 8, 9, 10, 11, 36, 37] :=
  ⟨by decide, by decide, rfl,
    msf_read_full_eq_spec_concat 4 10 [5, 2, 9] ⟨fun n => n, 0⟩ ⟨4, 10, [5, 2, 9]⟩
      (by decide) (by decide) rfl, by decide⟩

/-- Witness for C2: the sub-range read `read(file, 3, buf, 3)` of the same
stream agrees with slicing `[3, 6)` out of the whole-stream read. -/
theorem msf_read_slice_consistency_witness :
    (0 : Nat) < 4 ∧ (3 : Nat) + 3 ≤ 10 ∧
    MsfStream.read ⟨4, 10, [5, 2, 9]⟩ ⟨fun n => n, 0⟩ 3 3 = some [23, 8, 9] ∧
    MsfStream.read ⟨4, 10, [5, 2, 9]⟩ ⟨fun n => n, 0⟩ 3 3 =
      (MsfStream.read ⟨4, 10, [5, 2, 9]⟩ ⟨fun n => n, 0⟩ 10 0).map fun l =>
        (l.drop 3).take 3 := by
  refine ⟨by decide, by decide, by decide, ?_⟩
  obtain ⟨full, h1, h2⟩ := msf_read_slice_consistency 4 10 [5, 2, 9] ⟨fun n => n, 0⟩
    ⟨4, 10, [5, 2, 9]⟩ (by decide) (by decide) rfl 3 3 (by decide)
  rw [h1, h2]
  rfl

/-- Witness for C3: the read of 3 bytes at position 3 touches pages 0 and 1,
so it decomposes into exactly 2 chunks, `(0, 3, 1)` and `(1, 0, 2)`. -/
theorem msf_read_chunk_calls_witness :
    (0 : Nat) < 4 ∧ (0 : Nat) < 3 ∧
    (readChunks 4 3 3).length = (3 + 3 - 1) / 4 - 3 / 4 + 1 ∧
    ((readChunks 4 3 3).map fun c => c.2.2).sum = 3 ∧
    readChunks 4 3 3 = [(0, 3, 1), (1, 0, 2)] :=
  ⟨by decide, by decide, (msf_read_chunk_calls 4 3 3 (by decide) (by decide)).1,
    (msf_read_chunk_calls 4 3 3 (by decide) (by decide)).2.2.1, by decide⟩

/-- Witness for C4 at `pageSize = 4`, `length = 10`. -/
theorem pageCount_is_ceiling_witness :
    (0 : Nat) < 4 ∧
    (pageCountFn 4 10 = ⌈((10 : Nat) : ℚ) / ((4 : Nat) : ℚ)⌉₊ ∧ pageCountFn 4 0 = 0) :=
  ⟨by decide, pageCount_is_ceiling 4 10 (by decide)⟩

/-- Witness for C5: reading 3 bytes at offset 0 of physical page 5 with page
size 4 seeks to absolute offset 20 and reads the bytes at offsets 20-22. -/
theorem readFromPage_seek_read_witness :
    (0 : Nat) + 3 ≤ (4 : Nat) ∧
    (MsfStream.readFromPage ⟨4, 10, [5, 2, 9]⟩ ⟨fun n => n, 0⟩ 5 3 0 =
       (some (fread (fseek ⟨fun n => n, 0⟩ (5 * 4 + 0)) 3).1,
        (fread (fseek ⟨fun n => n, 0⟩ (5 * 4 + 0)) 3).2) ∧
     (MsfStream.readFromPage ⟨4, 10, [5, 2, 9]⟩ ⟨fun n => n, 0⟩ 5 3 0).1 =
       some ((List.range 3).map fun i => (5 * 4 + 0 + i : Nat))) :=
  ⟨by decide,
    readFromPage_seek_read ⟨4, 10, [5, 2, 9]⟩ ⟨fun n => n, 0⟩ 5 3 0 (by decide)⟩

/-- Witness for C6: the overload at position 3 reads the last 7 bytes. -/
theorem msf_readAll_overload_witness :
    (0 : Nat) < 4 ∧ (3 : Nat) ≤ 10 ∧
    (MsfStream.readAll ⟨4, 10, [5, 2, 9]⟩ ⟨fun n => n, 0⟩ 3 =
       MsfStream.read ⟨4, 10, [5, 2, 9]⟩ ⟨fun n => n, 0⟩ (10 - 3) 3 ∧
     MsfStream.readAll ⟨4, 10, [5, 2, 9]⟩ ⟨fun n => n, 0⟩ 3 =
       some ((List.range (10 - 3)).map fun i =>
         streamByte 4 [5, 2, 9] (fun n => n) (3 + i))) ∧
    MsfStream.readAll ⟨4, 10, [5, 2, 9]⟩ ⟨fun n => n, 0⟩ 3 =
      some [23, 8, 9, 10, 11, 36, 37] :=
  ⟨by decide, by decide,
    msf_readAll_overload 4 10 [5, 2, 9] ⟨fun n => n, 0⟩ ⟨4, 10, [5, 2, 9]⟩
      (by decide) (by decide) rfl 3 (by decide), by decide⟩

/-- Witness for C7: constructing with `pageSize = 4`, `length = 10` and the
four-entry page list `[5, 2, 9, 7]` copies exactly the first 3 entries. -/
theorem msf_make_stores_witness :
    (0 : Nat) < 4 ∧ pageCountFn 4 10 ≤ ([5, 2, 9, 7] : List Nat).length ∧
    MsfStream.make 4 10 [5, 2, 9, 7] = some ⟨4, 10, [5, 2, 9]⟩ ∧
    (MsfStream.mk 4 10 [5, 2, 9]).pageCount = ⌈((10 : Nat) : ℚ) / ((4 : Nat) : ℚ)⌉₊ := by
  obtain ⟨s, hmk, hL, hPS, hpages, hlen, hceil, h0⟩ :=
    msf_make_stores 4 10 [5, 2, 9, 7] (by decide) (by decide)
  have hs : s = ⟨4, 10, [5, 2, 9]⟩ := by
    cases s
    simp only [MsfStream.mk.injEq]
    exact ⟨hPS, hL, hpages⟩
  refine ⟨by decide, by decide, ?_, ?_⟩
  · rw [← hs]
    exact hmk
  · rw [← hs]
    exact hceil

/-- Witness for C9: requesting 20 bytes at position 0 of the length-10
stream fails with `none`. -/
theorem msf_read_out_of_range_fails_witness :
    MsfStream.read ⟨4, 10, [5, 2, 9]⟩ ⟨fun n => n, 0⟩ 20 0 = none :=
  (msf_read_out_of_range_fails ⟨4, 10, [5, 2, 9]⟩ ⟨fun n => n, 0⟩ 20 0 (by decide)).1
    (by decide)

/-- Witness for C10 at the claim's example: `pageCount` over `uint32_t` with
`pageSize = 4096` and `length = 2^32 - 1` wraps to 0, strictly below the true
ceiling. -/
theorem pageCountW_overflow_lt_ceiling_witness :
    (0 : Nat) < 4096 ∧ (4096 : Nat) < 2 ^ 32 ∧ (2 : Nat) ^ 32 - 1 < 2 ^ 32 ∧
    (2 : Nat) ^ 32 ≤ 2 ^ 32 - 1 + 4096 - 1 ∧
    pageCountW 32 4096 (2 ^ 32 - 1) = 0 ∧
    pageCountW 32 4096 (2 ^ 32 - 1) < ⌈((2 ^ 32 - 1 : Nat) : ℚ) / ((4096 : Nat) : ℚ)⌉₊ :=
  ⟨by decide, by decide, by decide, by decide, by decide,
    pageCountW_overflow_lt_ceiling 32 4096 (2 ^ 32 - 1) (by decide) (by decide)
      (by decide) (by decide)⟩
